import Mathlib

/-!
Verification of the Braille3D repository's FSM-based translation core
(`braille_fsm.py`, `braille_unicode.py`) against its specification.

Shallow embedding conventions:
- Python `str` text is modelled as `List Char` (`Txt`).
- Token metadata tags (`str` or `None`) are modelled as `Option String`.
- The flush sentinel `self.end` is detected in the source by object
  reference (`txt is self.end`); in the embedding the entries of a
  transition's output list form the inductive type `OutEntry` whose
  `flush` constructor stands for the sentinel reference.
- Python dicts keyed by strings are modelled as association lists with
  first-match lookup; the translator's merged transition table is shown
  to have pairwise-distinct keys, so first-match lookup agrees with the
  `dict.update` (last-wins) merge performed by `FSM.add_state`.
- `FSM.process` is a while loop driven by the pending input queue; it is
  modelled by the fuel-indexed function `procF`.  `procF` consumes one
  unit of fuel per loop iteration (popped token); `none` means the fuel
  ran out, `some .fatal` models the `return None` taken on an undefined
  state, and `some (.ok out)` models the normal `return out_seq`.
-/

/-- Python `str` payload of a token: a list of characters. -/
abbrev Txt := List Char

/-- A token's metadata tag: a Python string or `None`. -/
abbrev Tag := Option String

/-- A token `(txt, tag)` as used by `FSM.process`. -/
abbrev Token := Txt × Tag

/-- An output record `(txt, state)` as produced by `FSM.postprocess` and
the trailing flush of `FSM.process`. -/
abbrev OutRec := Txt × String

/-- One entry of a transition's output list: either the flush sentinel
(`self.end`, detected by reference in the source) or literal text. -/
inductive OutEntry where
  | flush : OutEntry
  | txt : Txt → OutEntry
deriving DecidableEq

/-- A state transition `([in toks], [out entries], new state)` from
`braille_fsm.py`. -/
structure Transition where
  inPush : List Token
  outPush : List OutEntry
  next : String
deriving DecidableEq

/-- First-match lookup in an association list keyed by `Txt`; models
Python `d[k]`/`k in d` for dicts whose keys are pairwise distinct. -/
def alookup {α : Type} : List (Txt × α) → Txt → Option α
  | [], _ => none
  | (k, v) :: rest, key => if key = k then some v else alookup rest key

/-- An FSM instance as far as `FSM.process` observes it: the state
table built by `add_state`, the start state, and the `transform` hook.
All machines in the repository use the default `postprocess`. -/
structure Machine where
  states : String → Option (Txt → Option Transition)
  startState : String
  transform : Txt → Tag → String → Option Transition

/-- Default `FSM.postprocess`: empty list for `txt == None`, otherwise
the single record `(txt, state)`.  Note the check in the source is
`txt == None`, so an empty (but present) string is still wrapped. -/
def postprocess (txt : Option Txt) (_tag : Tag) (state : String) : List OutRec :=
  match txt with
  | none => []
  | some t => [(t, state)]

/-- The `for txt in out_:` loop of `FSM.process` (lines 133-138): flush
entries append `postprocess` output to `out_seq` and clear the buffer;
text entries append to the buffer (`out_txt`). -/
def applyOut (buf : Option Txt) (out : List OutRec) (tag : Tag) (state : String) :
    List OutEntry → Option Txt × List OutRec
  | [] => (buf, out)
  | .flush :: es => applyOut none (out ++ postprocess buf tag state) tag state es
  | .txt t :: es =>
      applyOut (some (match buf with | none => t | some b => b ++ t)) out tag state es

/-- Result of `FSM.process`: `fatal` models `return None` (undefined
state), `ok` models the returned output list. -/
inductive PRes where
  | fatal : PRes
  | ok : List OutRec → PRes
deriving DecidableEq

/-- The trailing flush of `FSM.process` (line 154):
`if out_txt != None: out_seq.append((out_txt, state))`. -/
def trail (buf : Option Txt) (state : String) : List OutRec :=
  match buf with
  | none => []
  | some t => [(t, state)]

/-- Fuel-indexed model of the `FSM.process` while loop (lines 108-156).
Each recursive call consumes one unit of fuel and corresponds to one
loop iteration.  The undefined-state check happens, as in the source, at
the top of an iteration with a non-empty queue; an empty queue returns
the output (with trailing flush) without any state check. -/
def procF (M : Machine) : Nat → List Token → Option Txt → List OutRec → String → Option PRes
  | _, [], buf, out, state => some (.ok (out ++ trail buf state))
  | 0, _ :: _, _, _, _ => none
  | n + 1, tok :: rest, buf, out, state =>
      match M.states state with
      | none => some .fatal
      | some tbl =>
          match (match tbl tok.1 with
                 | some tr => some tr
                 | none => M.transform tok.1 tok.2 state) with
          | none => procF M n rest buf out state
          | some tr =>
              let p := applyOut buf out tok.2 state tr.outPush
              procF M n (tr.inPush ++ rest) p.1 p.2 tr.next

/-- String input is processed as a sequence of characters, each wrapped
as a token with tag `None` (line 104). -/
def strToToks (s : Txt) : List Token := s.map (fun c => ([c], none))

/-- Run a machine from the start state with empty buffer and output. -/
def runFSM (M : Machine) (fuel : Nat) (toks : List Token) : Option PRes :=
  procF M fuel toks none [] M.startState

/-! ## `braille_unicode.get_conversion_maps` -/

/-- One binary digit character, as produced by Python `f-string` `b`
formatting. -/
def bitChar (b : Nat) : Char := if b = 1 then '1' else '0'

/-- `f'{page_i:02b}'` for `page_i < 4`: two binary digits, most
significant first. -/
def pageBits (p : Nat) : Txt := [bitChar (p / 2 % 2), bitChar (p % 2)]

/-- `f'{i:04b}'` for `i < 16`: four binary digits, most significant
first. -/
def idxBits (i : Nat) : Txt :=
  [bitChar (i / 8 % 2), bitChar (i / 4 % 2), bitChar (i / 2 % 2), bitChar (i % 2)]

/-- `dot_str`: the reversed 6-bit string with a space inserted after the
first three characters (`'xxxyyy' -> 'xxx yyy'`). -/
def dotStr (p i : Nat) : Txt :=
  let s := (pageBits p ++ idxBits i).reverse
  s.take 3 ++ ' ' :: s.drop 3

/-- `uni_char`: `chr(int('28' + page + hexdigit, 16))`, i.e. the code
point `0x2800 + 16 * page + i`; the dict values are one-character
strings `f'{uni_char}'`. -/
def uniStr (p i : Nat) : Txt := [Char.ofNat (0x2800 + 16 * p + i)]

/-- The `dots2unicode` dict of `get_conversion_maps`, in insertion
order (pages 0-3, offsets 0-15). -/
def dots2unicode : List (Txt × Txt) :=
  (List.range 4).flatMap fun p => (List.range 16).map fun i => (dotStr p i, uniStr p i)

/-- The `unicode2dots` dict of `get_conversion_maps`, in insertion
order. -/
def unicode2dots : List (Txt × Txt) :=
  (List.range 4).flatMap fun p => (List.range 16).map fun i => (uniStr p i, dotStr p i)

/-- The 64 six-dot pattern strings `"abc def"` with each of `a`-`f`
drawn from `{'0','1'}`: the domain the spec ascribes to the
dots-to-Unicode map. -/
def sixDotPatterns : List Txt :=
  let bs := ['0', '1']
  bs.flatMap fun a => bs.flatMap fun b => bs.flatMap fun c =>
    bs.flatMap fun d => bs.flatMap fun e => bs.map fun f => [a, b, c, ' ', d, e, f]

/-! ## `BrailleTranslator.setup` -/

/-- `BrailleFSM.whitespace_tag`. -/
def whitespaceTag : String := "whitespace"

/-- `BrailleFSM.lower_tag`. -/
def lowerTag : String := "lower_str"

/-- `BrailleFSM.upper_tag`. -/
def upperTag : String := "upper_str"

/-- `BrailleFSM.number_tag`. -/
def numberTag : String := "number"

/-- The translator's single state name (`state = 'default'`). -/
def defaultState : String := "default"

/-- Lookup in `dots_to_uni`; the setup code indexes the dict directly
(`dots_to_uni[v]`), which never fails for the patterns it uses. -/
def uniOf (pat : Txt) : Txt := (alookup dots2unicode pat).getD []

/-- `self.upper_code = dots_to_uni['000 001']`. -/
def upperCode : Txt := uniOf "000 001".toList

/-- `self.number_code = dots_to_uni['001 111']`. -/
def numberCode : Txt := uniOf "001 111".toList

/-- The lowercase-letter dot-code dict of `BrailleTranslator.setup`
before it is mapped to transitions. -/
def lowerDotPairs : List (Txt × Txt) :=
  [("a".toList, "100 000".toList),
   ("b".toList, "110 000".toList),
   ("c".toList, "100 100".toList),
   ("d".toList, "100 110".toList),
   ("e".toList, "100 010".toList),
   ("f".toList, "110 100".toList),
   ("g".toList, "110 110".toList),
   ("h".toList, "110 010".toList),
   ("i".toList, "010 100".toList),
   ("j".toList, "010 110".toList),
   ("k".toList, "101 000".toList),
   ("l".toList, "111 000".toList),
   ("m".toList, "101 100".toList),
   ("n".toList, "101 110".toList),
   ("o".toList, "101 010".toList),
   ("p".toList, "111 100".toList),
   ("q".toList, "111 110".toList),
   ("r".toList, "111 010".toList),
   ("s".toList, "011 100".toList),
   ("t".toList, "011 110".toList),
   ("u".toList, "101 001".toList),
   ("v".toList, "111 001".toList),
   ("w".toList, "010 111".toList),
   ("x".toList, "101 101".toList),
   ("y".toList, "101 111".toList),
   ("z".toList, "101 011".toList)]

/-- `lower = { k: ([], [dots_to_uni[v]], state) for k,v in lower.items() }`. -/
def lowerEntries : List (Txt × Transition) :=
  lowerDotPairs.map fun kv => (kv.1, ⟨[], [.txt (uniOf kv.2)], defaultState⟩)

/-- ASCII uppercasing of a character, modelling Python `str.upper` on
the character set used here. -/
def pyUpperChar (c : Char) : Char :=
  if 'a' ≤ c ∧ c ≤ 'z' then Char.ofNat (c.toNat - 32) else c

/-- ASCII lowercasing of a character, modelling Python `str.lower` on
the character set used here. -/
def pyLowerChar (c : Char) : Char :=
  if 'A' ≤ c ∧ c ≤ 'Z' then Char.ofNat (c.toNat + 32) else c

/-- Python `str.upper` over the modelled character set. -/
def pyUpper (t : Txt) : Txt := t.map pyUpperChar

/-- Python `str.lower` over the modelled character set. -/
def pyLower (t : Txt) : Txt := t.map pyLowerChar

/-- `upper = { k.upper(): (i, [self.upper_code] + o, s) for k,(i,o,s) in lower.items() }`. -/
def upperEntries : List (Txt × Transition) :=
  lowerEntries.map fun kv => (pyUpper kv.1, ⟨kv.2.inPush, .txt upperCode :: kv.2.outPush, kv.2.next⟩)

/-- `number = { k: lower['abcdefghij'[i]] for (i,k) in enumerate('1234567890') }`:
each digit is bound to the *same* transition as the corresponding
letter, with no number indicator in it. -/
def numberEntries : List (Txt × Transition) :=
  (List.zip "1234567890".toList "abcdefghij".toList).filterMap fun dv =>
    (alookup lowerEntries [dv.2]).map fun tr => ([dv.1], tr)

/-- The `misc` dict (direct translations: space, punctuation, whole
words and fragments) before it is mapped to transitions. -/
def miscDotPairs : List (Txt × Txt) :=
  [(" ".toList, "000 000".toList),
   (",".toList, "010 000".toList),
   (".".toList, "010 011".toList),
   ("for".toList, "111 111".toList),
   ("and".toList, "111 101".toList),
   ("the".toList, "011 101".toList),
   ("ed".toList, "110 101".toList),
   ("ing".toList, "001 101".toList)]

/-- `misc = { k: ([], [dots_to_uni[v]], state) for k,v in misc.items() }`. -/
def miscEntries : List (Txt × Transition) :=
  miscDotPairs.map fun kv => (kv.1, ⟨[], [.txt (uniOf kv.2)], defaultState⟩)

/-- `uni = { v: ([], [v], state) for k,v in dots_to_uni.items() }`:
every Braille code point is an identity transition. -/
def uniEntries : List (Txt × Transition) :=
  dots2unicode.map fun kv => (kv.2, ⟨[], [.txt kv.2], defaultState⟩)

/-- The `swap` dict: abbreviations re-queued as lowercase-tagged input
tokens, and tab expanded to `spaces_per_tab = 2` spaces. -/
def swapEntries : List (Txt × Transition) :=
  [("tomorrow".toList, ⟨[("tm".toList, some lowerTag)], [], defaultState⟩),
   ("friend".toList, ⟨[("fr".toList, some lowerTag)], [], defaultState⟩),
   ("little".toList, ⟨[("ll".toList, some lowerTag)], [], defaultState⟩),
   ("you".toList, ⟨[("y".toList, some lowerTag)], [], defaultState⟩),
   ("like".toList, ⟨[("l".toList, some lowerTag)], [], defaultState⟩),
   ("him".toList, ⟨[("hm".toList, some lowerTag)], [], defaultState⟩),
   ("\t".toList, ⟨[(" ".toList, some whitespaceTag), (" ".toList, some whitespaceTag)], [], defaultState⟩)]

/-- The merged transition table of the translator's single state:
`self.add_state(state, [lower, upper, number, misc, uni, swap])`.
`add_state` merges with `dict.update` (later dicts win); the keys are
pairwise distinct (`trEntries_keys_nodup`), so first-match lookup on the
concatenation in the same order is equivalent. -/
def trEntries : List (Txt × Transition) :=
  lowerEntries ++ upperEntries ++ numberEntries ++ miscEntries ++ uniEntries ++ swapEntries

/-- Lookup in the translator's transition table. -/
def trTable : Txt → Option Transition := alookup trEntries

/-- Python `txt.find(pat)` restricted to the left-to-right first match:
`some i` is the first index where `pat` occurs in `xs`. -/
def findSub (pat : Txt) : Txt → Option Nat
  | [] => if pat.isPrefixOf ([] : Txt) then some 0 else none
  | c :: t => if pat.isPrefixOf (c :: t) then some 0 else (findSub pat t).map (· + 1)

/-- The fragment decomposition of `BrailleTranslator.transform`:
`pre, post = txt[:i], txt[i+len(x):]` followed by
`[t for t in [pre, x, post] if t != '']`. -/
def fragTry (txt frag : Txt) : Option (List Txt) :=
  (findSub frag txt).map fun i =>
    ([txt.take i, frag, txt.drop (i + frag.length)].filter (fun p => p ≠ []))

/-- `BrailleTranslator.transform`: number-tagged tokens are re-queued
behind the number indicator, all-uppercase tokens behind two upper
indicators, otherwise the first `'ed'`/`'ing'` fragment is split out,
and finally the text is split into single characters.  It never returns
`None`. -/
def trTransform (txt : Txt) (tag : Tag) (state : String) : Option Transition :=
  if tag = some numberTag then
    some ⟨[(numberCode, tag), (txt, some lowerTag)], [], state⟩
  else if tag = some upperTag then
    some ⟨[(upperCode, tag), (upperCode, tag), (pyLower txt, some lowerTag)], [], state⟩
  else
    match fragTry txt "ed".toList with
    | some ps => some ⟨ps.map (fun p => (p, tag)), [], state⟩
    | none =>
        match fragTry txt "ing".toList with
        | some ps => some ⟨ps.map (fun p => (p, tag)), [], state⟩
        | none => some ⟨txt.map (fun c => ([c], tag)), [], state⟩

/-- The `BrailleTranslator` machine: a single state `'default'`. -/
def trM : Machine :=
  ⟨fun s => if s = defaultState then some trTable else none, defaultState, trTransform⟩

/-- `BrailleTranslator.process` on a raw string, projected to the
concatenated output text (`some` only when the run completes within
`fuel` iterations and succeeds). -/
def translateStr (fuel : Nat) (s : Txt) : Option Txt :=
  match runFSM trM fuel (strToToks s) with
  | some (.ok out) => some ((out.map Prod.fst).flatten)
  | _ => none

set_option maxRecDepth 4096

/-! ## Auxiliary definitions for the claims -/

/-- A one-state transition table whose only transition (`'a'`) targets
the undefined state `'bogus'`; used to exercise the engine's
undefined-state handling. -/
def tbl0 : Txt → Option Transition :=
  fun t => if t = ['a'] then some ⟨[], [], "bogus"⟩ else none

/-- A machine with start state `'s0'`, the table `tbl0`, and a
declining transform hook (the `FSM` default). -/
def M1 : Machine :=
  ⟨fun s => if s = "s0" then some tbl0 else none, "s0", fun _ _ _ => none⟩

/-- The lowercase letters, the domain of the case rule. -/
def lowerLetters : Txt := "abcdefghijklmnopqrstuvwxyz".toList

/-- The 64 Braille code points `U+2800`-`U+283F`. -/
def brailleChars : List Char := (List.range 64).map fun k => Char.ofNat (0x2800 + k)

/-- The buffer contents after appending the characters of `s` one at a
time to the buffer `b` (used to state the identity pass-through run). -/
def bufApp (b : Option Txt) (s : Txt) : Option Txt :=
  match b, s with
  | none, [] => none
  | none, s => some s
  | some t, s => some (t ++ s)

/-- Every character with a literal transition in the translator table:
letters, digits, space, tab, comma, period, and the Braille block. -/
def recChars : List Char :=
  "abcdefghijklmnopqrstuvwxyz".toList ++ "ABCDEFGHIJKLMNOPQRSTUVWXYZ".toList ++
    "0123456789".toList ++ [' ', ',', '.', '\t'] ++ brailleChars

/-- Termination measure, character part: tab weighs 2 because the
table expands it into two spaces. -/
def charWeight (c : Char) : Nat := if c = '\t' then 2 else 1

/-- Termination measure of a text: sum of its character weights. -/
def sW (t : Txt) : Nat := (t.map charWeight).sum

/-- Termination measure, tag part: number- and uppercase-tagged tokens
weigh more because the transform re-queues their text lowercase-tagged. -/
def tagWeight (tg : Tag) : Nat :=
  if tg = some numberTag ∨ tg = some upperTag then 2 else 1

/-- Termination measure of a token. -/
def tokW (t : Token) : Nat := tagWeight t.2 + sW t.1

/-- The transition the translator applies to a popped token: literal
table hit first, otherwise the transform hook (line 122 of the
source, specialised to the translator's single state). -/
def trStepTr (t : Token) : Option Transition :=
  match trTable t.1 with
  | some tr => some tr
  | none => trTransform t.1 t.2 defaultState

/-- `TRuns toks p n q`: starting from buffer/output pair `p`, the
translator consumes the queue `toks` (and everything those tokens
re-queue) in exactly `n` loop iterations, ending with pair `q`. -/
inductive TRuns : List Token → Option Txt × List OutRec → Nat → Option Txt × List OutRec → Prop where
  | nil : ∀ p, TRuns [] p 0 p
  | drop : ∀ t rest p n q, trStepTr t = none → TRuns rest p n q → TRuns (t :: rest) p (n + 1) q
  | step : ∀ t rest p n q tr, trStepTr t = some tr →
      TRuns (tr.inPush ++ rest) (applyOut p.1 p.2 t.2 defaultState tr.outPush) n q →
      TRuns (t :: rest) p (n + 1) q

/-- A token the translator can consume completely, from any
buffer/output pair. -/
def Consumable (t : Token) : Prop := ∀ p, ∃ n q, TRuns [t] p n q

/-- Texts whose table transition exists and re-queues nothing. -/
def directHitB (t : Txt) : Bool :=
  match trTable t with
  | some tr => tr.inPush.isEmpty
  | none => false

/-! ## General lemmas -/

theorem alookup_mem {α : Type} : ∀ (l : List (Txt × α)) (k : Txt) (v : α),
    alookup l k = some v → (k, v) ∈ l := by
  intro l
  induction l with
  | nil => intro k v h; simp [alookup] at h
  | cons kv rest ih =>
      intro k v h
      obtain ⟨k0, v0⟩ := kv
      by_cases hk : k = k0
      · subst hk
        simp [alookup] at h
        simp [h]
      · simp [alookup, hk] at h
        exact List.mem_cons_of_mem _ (ih k v h)

theorem applyOut_noFlush : ∀ (es : List OutEntry) (buf : Option Txt) (out : List OutRec)
    (tag : Tag) (st : String), (∀ e ∈ es, e ≠ OutEntry.flush) →
    (applyOut buf out tag st es).2 = out := by
  intro es
  induction es with
  | nil => intro buf out tag st _; rfl
  | cons e rest ih =>
      intro buf out tag st h
      cases e with
      | flush => exact absurd rfl (h _ (List.mem_cons_self _ _))
      | txt t => exact ih _ out tag st (fun x hx => h x (List.mem_cons_of_mem _ hx))

/-! ## C5: default postprocess -/

/-- C5 counterexample: for the empty (but present) buffered string the
default `postprocess` returns one record, not the empty list, because
the source checks `txt == None`, not emptiness. -/
theorem c5_counterexample :
    postprocess (some ([] : Txt)) none "default" = [(([] : Txt), "default")] ∧
    postprocess (some ([] : Txt)) none "default" ≠ [] := by
  constructor
  · rfl
  · simp [postprocess]

/-- C5 amended: the default `postprocess` wraps any present text —
including the empty string — as exactly one record `(text, state)`,
and produces no record exactly when there is no buffered text
(`txt == None`). -/
theorem c5_amended_postprocess : ∀ (tag : Tag) (st : String),
    postprocess none tag st = [] ∧ ∀ t : Txt, postprocess (some t) tag st = [(t, st)] := by
  intro tag st
  exact ⟨rfl, fun t => rfl⟩

/-! ## C6: recoverable token-level miss -/

/-- C6: when the current state's table has no transition for the popped
token's text and the transform hook declines, `process` drops the token
and continues with the remaining input, leaving state, buffer and both
output structures untouched; the run is not aborted. -/
theorem c6_miss_drops_token (M : Machine) (n : Nat) (tok : Token) (rest : List Token)
    (buf : Option Txt) (out : List OutRec) (st : String) (tbl : Txt → Option Transition)
    (h1 : M.states st = some tbl) (h2 : tbl tok.1 = none)
    (h3 : M.transform tok.1 tok.2 st = none) :
    procF M (n + 1) (tok :: rest) buf out st = procF M n rest buf out st := by
  simp [procF, h1, h2, h3]

/-- C6 witness: a concrete miss on machine `M1`. -/
theorem c6_witness :
    procF M1 2 [(['z'], none), (['a'], none)] none [] "s0" =
      procF M1 1 [(['a'], none)] none [] "s0" :=
  c6_miss_drops_token M1 1 (['z'], none) [(['a'], none)] none [] "s0" tbl0
    rfl (by decide) rfl

/-! ## C3: undefined-state detection -/

/-- C3 counterexample: on machine `M1` the only transition targets the
undefined state `'bogus'`; fired on the final input token it does not
abort — `process` returns a successful (empty) output list, because the
undefined-state check sits at the top of the loop and the loop has
already ended. -/
theorem c3_counterexample :
    procF M1 1 [(['a'], none)] none [] "s0" = some (.ok []) ∧
    M1.states "bogus" = none := by
  constructor
  · rfl
  · rfl

/-- C3 amended: whenever an applied transition (from the table or from
the transform hook) sets the current state to a name not in the state
table *and input remains after applying it*, `process` aborts with a
fatal failure at the top of the next iteration.  If such a transition
fires on the final token (nothing left in the queue), the run instead
returns its output successfully. -/
theorem c3_amended_fatal (M : Machine) (n : Nat) (tok : Token) (rest : List Token)
    (buf : Option Txt) (out : List OutRec) (st : String) (tbl : Txt → Option Transition)
    (tr : Transition) (h1 : M.states st = some tbl)
    (h2 : tbl tok.1 = some tr ∨ (tbl tok.1 = none ∧ M.transform tok.1 tok.2 st = some tr))
    (h3 : M.states tr.next = none) (h4 : tr.inPush ++ rest ≠ []) :
    procF M (n + 2) (tok :: rest) buf out st = some .fatal := by
  obtain ⟨x, xs, hxs⟩ := List.exists_cons_of_ne_nil h4
  have hrest : procF M (n + 2) (tok :: rest) buf out st =
      procF M (n + 1) (tr.inPush ++ rest)
        (applyOut buf out tok.2 st tr.outPush).1
        (applyOut buf out tok.2 st tr.outPush).2 tr.next := by
    rcases h2 with h2 | ⟨h2a, h2b⟩
    · show procF M (n + 1 + 1) (tok :: rest) buf out st = _
      simp [procF, h1, h2]
    · show procF M (n + 1 + 1) (tok :: rest) buf out st = _
      simp [procF, h1, h2a, h2b]
  rw [hrest, hxs]
  simp [procF, h3]

/-- C3 witness: the amended theorem at a concrete machine and input
(undefined-state transition fired with one token still queued). -/
theorem c3_witness :
    procF M1 2 [(['a'], none), (['b'], none)] none [] "s0" = some .fatal :=
  c3_amended_fatal M1 0 (['a'], none) [(['b'], none)] none [] "s0" tbl0
    ⟨[], [], "bogus"⟩ rfl (Or.inl (by decide)) rfl (by decide)

/-! ## C1: single-digit translation (code bug) -/

/-- C1: evaluation at the failing input.  The number table binds each
digit to the *same* transition as the corresponding letter with no
number indicator, and the literal table hit preempts the transform hook
that would insert one; so `translate('1')` is the bare letter-a code
`U+2801`, while the claimed value is `numberIndicator + translate('a')`
= `U+283C U+2801`.  (The transform inserts the indicator only for
number-tagged tokens absent from the table, e.g. multi-digit runs.) -/
theorem c1_digit_divergence :
    translateStr 1 ['1'] = some [Char.ofNat 0x2801] ∧
    (translateStr 1 ['a']).map (fun t => numberCode ++ t) =
      some [Char.ofNat 0x283C, Char.ofNat 0x2801] ∧
    translateStr 1 ['1'] ≠ (translateStr 1 ['a']).map (fun t => numberCode ++ t) := by
  refine ⟨by decide, by decide, by decide⟩

/-! ## C8: case rule -/

/-- C8: for every lowercase letter `L`, translating `upper(L)` yields
the uppercase-indicator code followed by the translation of `L` (one
loop iteration consumes the single-character token via the `upper`
table, whose output is `[self.upper_code] + o`). -/
theorem c8_case_rule : ∀ c ∈ lowerLetters,
    translateStr 1 [pyUpperChar c] = (translateStr 1 [c]).map (fun t => upperCode ++ t) := by
  decide

/-- C8 witness: the case rule at `'a'`. -/
theorem c8_witness :
    'a' ∈ lowerLetters ∧
    translateStr 1 [pyUpperChar 'a'] = (translateStr 1 ['a']).map (fun t => upperCode ++ t) :=
  ⟨by decide, c8_case_rule 'a' (by decide)⟩

/-! ## C9: conversion maps are mutually inverse bijections -/

/-- C9: `get_conversion_maps` returns two 64-entry maps; the
dots-to-Unicode map is keyed exactly by the 64 six-dot pattern strings
(`"abc def"` with binary digits) with pairwise-distinct one-character
values inside the contiguous block `U+2800`-`U+283F`; the
Unicode-to-dots map is its inverse; and the two compositions are the
identity on their respective domains. -/
theorem c9_conversion_maps :
    dots2unicode.length = 64 ∧ unicode2dots.length = 64 ∧
    (dots2unicode.map Prod.fst).Nodup ∧ (dots2unicode.map Prod.snd).Nodup ∧
    (∀ kv ∈ dots2unicode,
        kv.1 ∈ sixDotPatterns ∧ kv.2.length = 1 ∧
        (∀ c ∈ kv.2, 0x2800 ≤ c.toNat ∧ c.toNat ≤ 0x283F) ∧
        alookup unicode2dots kv.2 = some kv.1) ∧
    (∀ kv ∈ unicode2dots, alookup dots2unicode kv.2 = some kv.1) ∧
    (∀ p ∈ sixDotPatterns, (alookup dots2unicode p).bind (alookup unicode2dots) = some p) ∧
    (∀ n ∈ List.range 64,
        (alookup unicode2dots [Char.ofNat (0x2800 + n)]).bind (alookup dots2unicode) =
          some [Char.ofNat (0x2800 + n)]) := by
  decide

/-! ## Translator table facts -/

/-- The merged translator table has pairwise-distinct keys, so
first-match lookup on the concatenation agrees with the `dict.update`
merge of `add_state`. -/
theorem trEntries_keys_nodup : (trEntries.map Prod.fst).Nodup := by decide

/-- No transition of the translator's static table carries the flush
sentinel in its output list. -/
theorem table_noFlush : ∀ kv ∈ trEntries, ∀ e ∈ kv.2.outPush, e ≠ OutEntry.flush := by decide

/-- Every transition of the translator's static table stays in the
single state `'default'`. -/
theorem table_next : ∀ kv ∈ trEntries, kv.2.next = defaultState := by decide

/-- Every transition returned by `BrailleTranslator.transform` has an
empty output list and keeps the state it was given. -/
theorem transform_shape : ∀ (txt : Txt) (tag : Tag) (st : String) (tr : Transition),
    trTransform txt tag st = some tr → tr.outPush = [] ∧ tr.next = st := by
  intro txt tag st tr h
  unfold trTransform at h
  split at h
  · injection h with h; exact h ▸ ⟨rfl, rfl⟩
  · split at h
    · injection h with h; exact h ▸ ⟨rfl, rfl⟩
    · split at h
      · injection h with h; exact h ▸ ⟨rfl, rfl⟩
      · split at h
        · injection h with h; exact h ▸ ⟨rfl, rfl⟩
        · injection h with h; exact h ▸ ⟨rfl, rfl⟩

/-- One loop iteration of the translator when the applied transition is
`tr` (table hit or transform result). -/
theorem procF_trM_succ_some (n : Nat) (t : Token) (ts : List Token) (buf : Option Txt)
    (out : List OutRec) (tr : Transition) (h : trStepTr t = some tr) :
    procF trM (n + 1) (t :: ts) buf out defaultState =
      procF trM n (tr.inPush ++ ts)
        (applyOut buf out t.2 defaultState tr.outPush).1
        (applyOut buf out t.2 defaultState tr.outPush).2 tr.next := by
  unfold trStepTr at h
  cases htb : trTable t.1 with
  | some tr2 =>
      rw [htb] at h
      injection h with h
      subst h
      simp [procF, trM, htb]
  | none =>
      rw [htb] at h
      replace h : trTransform t.1 t.2 defaultState = some tr := h
      simp [procF, trM, htb, h]

/-- One loop iteration of the translator when no transition applies. -/
theorem procF_trM_succ_none (n : Nat) (t : Token) (ts : List Token) (buf : Option Txt)
    (out : List OutRec) (h : trStepTr t = none) :
    procF trM (n + 1) (t :: ts) buf out defaultState = procF trM n ts buf out defaultState := by
  unfold trStepTr at h
  cases htb : trTable t.1 with
  | some tr2 => rw [htb] at h; cases h
  | none =>
      rw [htb] at h
      replace h : trTransform t.1 t.2 defaultState = none := h
      simp [procF, trM, htb, h]

/-- The applied transition never contains the flush sentinel and always
returns to `'default'`. -/
theorem trStepTr_shape : ∀ (t : Token) (tr : Transition), trStepTr t = some tr →
    (∀ e ∈ tr.outPush, e ≠ OutEntry.flush) ∧ tr.next = defaultState := by
  intro t tr h
  unfold trStepTr at h
  cases htb : trTable t.1 with
  | some tr2 =>
      rw [htb] at h
      injection h with h
      subst h
      have hm := alookup_mem _ _ _ htb
      exact ⟨table_noFlush _ hm, table_next _ hm⟩
  | none =>
      rw [htb] at h
      have := transform_shape _ _ _ _ h
      rw [this.1]
      exact ⟨fun e he => absurd he (List.not_mem_nil e), this.2⟩

/-- Invariant: a completed translator run from state `'default'` never
flushes mid-run — its result is the initial output list plus at most
the single trailing record. -/
theorem tr_run_out : ∀ (n : Nat) (toks : List Token) (buf : Option Txt) (out : List OutRec)
    (r : PRes), procF trM n toks buf out defaultState = some r →
    ∃ b2, r = .ok (out ++ trail b2 defaultState) := by
  intro n
  induction n with
  | zero =>
      intro toks buf out r h
      cases toks with
      | nil =>
          refine ⟨buf, ?_⟩
          simp [procF] at h
          exact h.symm
      | cons t ts => simp [procF] at h
  | succ n ih =>
      intro toks buf out r h
      cases toks with
      | nil =>
          refine ⟨buf, ?_⟩
          simp [procF] at h
          exact h.symm
      | cons t ts =>
          cases hs : trStepTr t with
          | none =>
              rw [procF_trM_succ_none n t ts buf out hs] at h
              exact ih ts buf out r h
          | some tr =>
              rw [procF_trM_succ_some n t ts buf out tr hs] at h
              have hshape := trStepTr_shape t tr hs
              rw [hshape.2] at h
              rw [applyOut_noFlush tr.outPush buf out t.2 defaultState hshape.1] at h
              exact ih _ _ out r h

/-! ## C10: no mid-run flush, at most one output record -/

/-- C10: the flush sentinel occurs in no static-table transition and in
no transform-hook transition of the translator; consequently every
completed `BrailleTranslator.process` run returns at most one output
record — the single trailing record, tagged with the final state
`'default'`. -/
theorem c10_single_record :
    (∀ kv ∈ trEntries, ∀ e ∈ kv.2.outPush, e ≠ OutEntry.flush) ∧
    (∀ (txt : Txt) (tag : Tag) (st : String) (tr : Transition),
        trTransform txt tag st = some tr → ∀ e ∈ tr.outPush, e ≠ OutEntry.flush) ∧
    (∀ (n : Nat) (toks : List Token) (r : PRes), runFSM trM n toks = some r →
        ∃ out, r = .ok out ∧ out.length ≤ 1 ∧ ∀ rec ∈ out, rec.2 = defaultState) := by
  refine ⟨table_noFlush, ?_, ?_⟩
  · intro txt tag st tr h e he
    rw [(transform_shape txt tag st tr h).1] at he
    cases he
  · intro n toks r h
    obtain ⟨b2, hb⟩ := tr_run_out n toks none [] r h
    refine ⟨trail b2 defaultState, by simpa using hb, ?_, ?_⟩
    · cases b2 <;> simp [trail]
    · intro rec hrec
      cases b2 with
      | none => cases hrec
      | some t =>
          simp [trail] at hrec
          rw [hrec]

/-- C10 witness: a concrete completed run producing exactly one record
tagged `'default'`. -/
theorem c10_witness :
    ∃ out, PRes.ok [([Char.ofNat 0x2801], defaultState)] = .ok out ∧ out.length ≤ 1 ∧
      ∀ rec ∈ out, rec.2 = defaultState :=
  c10_single_record.2.2 1 [(['a'], none)] (.ok [([Char.ofNat 0x2801], defaultState)]) (by decide)

/-! ## C7: identity pass-through for Braille code points -/

/-- Every Braille code point has an identity transition in the
translator table (the `uni` dict). -/
theorem braille_identity : ∀ c ∈ brailleChars,
    trTable [c] = some ⟨[], [.txt [c]], defaultState⟩ := by decide

/-- Running the translator over a string of Braille code points appends
the string to the buffer character by character and consumes exactly
one iteration per character. -/
theorem c7_run : ∀ (s : Txt) (b : Option Txt) (out : List OutRec),
    (∀ c ∈ s, c ∈ brailleChars) →
    procF trM s.length (strToToks s) b out defaultState =
      some (.ok (out ++ trail (bufApp b s) defaultState)) := by
  intro s
  induction s with
  | nil =>
      intro b out _
      cases b <;> simp [procF, strToToks, bufApp, trail]
  | cons c rest ih =>
      intro b out h
      have hc : trTable [c] = some ⟨[], [.txt [c]], defaultState⟩ :=
        braille_identity c (h c (List.mem_cons_self c rest))
      have hs : trStepTr ([c], none) = some ⟨[], [.txt [c]], defaultState⟩ := by
        unfold trStepTr
        rw [hc]
      have hone := procF_trM_succ_some rest.length ([c], none) (strToToks rest) b out
        ⟨[], [.txt [c]], defaultState⟩ hs
      simp only [strToToks, List.map_cons, List.length_cons]
      rw [show (([c], (none : Tag)) :: List.map (fun ch => ([ch], (none : Tag))) rest) =
        (([c], (none : Tag)) :: strToToks rest) from rfl]
      rw [hone]
      simp only [applyOut, List.nil_append]
      cases b with
      | none =>
          rw [ih (some [c]) out (fun x hx => h x (List.mem_cons_of_mem c hx))]
          cases rest <;> simp [bufApp]
      | some t =>
          rw [ih (some (t ++ [c])) out (fun x hx => h x (List.mem_cons_of_mem c hx))]
          simp [bufApp]

/-- C7: translating a string composed solely of valid Braille code
points returns it unchanged (the concatenated text of the single
output record equals the input). -/
theorem c7_identity : ∀ s : Txt, (∀ c ∈ s, c ∈ brailleChars) →
    translateStr s.length s = some s := by
  intro s h
  unfold translateStr runFSM
  have hst : trM.startState = defaultState := rfl
  rw [hst, c7_run s none [] h]
  cases s with
  | nil => rfl
  | cons c rest => simp [bufApp, trail]

/-- C7 witness: a concrete two-code-point string passes through
unchanged. -/
theorem c7_witness :
    (∀ c ∈ [Char.ofNat 0x2801, Char.ofNat 0x283F], c ∈ brailleChars) ∧
    translateStr 2 [Char.ofNat 0x2801, Char.ofNat 0x283F] =
      some [Char.ofNat 0x2801, Char.ofNat 0x283F] :=
  ⟨by decide, c7_identity [Char.ofNat 0x2801, Char.ofNat 0x283F] (by decide)⟩

/-! ## C2: termination machinery -/

/-- A `TRuns` derivation is a terminating prefix of the translator's
loop: `n` iterations empty the queue. -/
theorem truns_procF : ∀ {toks p n q}, TRuns toks p n q →
    procF trM n toks p.1 p.2 defaultState = some (.ok (q.2 ++ trail q.1 defaultState)) := by
  intro toks p n q h
  induction h with
  | nil p => rfl
  | drop t rest p n q hs _ ih => rw [procF_trM_succ_none n t rest p.1 p.2 hs]; exact ih
  | step t rest p n q tr hs _ ih =>
      rw [procF_trM_succ_some n t rest p.1 p.2 tr hs, (trStepTr_shape t tr hs).2]
      exact ih

/-- Consumption runs compose over queue concatenation. -/
theorem truns_append : ∀ {xs p n q}, TRuns xs p n q → ∀ {ys m r}, TRuns ys q m r →
    TRuns (xs ++ ys) p (n + m) r := by
  intro xs p n q h
  induction h with
  | nil p => intro ys m r h2; simpa using h2
  | drop t rest p n q hs _ ih =>
      intro ys m r h2
      rw [show n + 1 + m = n + m + 1 from by omega]
      exact TRuns.drop t (rest ++ ys) p (n + m) r hs (ih h2)
  | step t rest p n q tr hs _ ih =>
      intro ys m r h2
      rw [show n + 1 + m = n + m + 1 from by omega]
      refine TRuns.step t (rest ++ ys) p (n + m) r tr hs ?_
      rw [← List.append_assoc]
      exact ih h2

/-- A queue of individually consumable tokens is consumable. -/
theorem truns_ofList : ∀ (toks : List Token), (∀ t ∈ toks, Consumable t) →
    ∀ p, ∃ n q, TRuns toks p n q := by
  intro toks
  induction toks with
  | nil => intro _ p; exact ⟨0, p, TRuns.nil p⟩
  | cons t rest ih =>
      intro h p
      obtain ⟨n1, q1, h1⟩ := h t (List.mem_cons_self t rest) p
      obtain ⟨n2, q2, h2⟩ := ih (fun x hx => h x (List.mem_cons_of_mem t hx)) q1
      exact ⟨n1 + n2, q2, truns_append h1 h2⟩

/-- A token whose applied transition re-queues only consumable tokens
is consumable. -/
theorem consumable_of_step (t : Token) (tr : Transition) (h : trStepTr t = some tr)
    (hall : ∀ d ∈ tr.inPush, Consumable d) : Consumable t := by
  intro p
  obtain ⟨n, q, hr⟩ := truns_ofList tr.inPush hall
    (applyOut p.1 p.2 t.2 defaultState tr.outPush)
  refine ⟨n + 1, q, TRuns.step t [] p n q tr h ?_⟩
  rw [List.append_nil]
  exact hr

/-- A text with a re-queue-free table transition is consumable under
any tag. -/
theorem consumable_of_directHit (t : Txt) (h : directHitB t = true) :
    ∀ tag, Consumable (t, tag) := by
  intro tag
  unfold directHitB at h
  cases htb : trTable t with
  | none => rw [htb] at h; cases h
  | some tr =>
      rw [htb] at h
      replace h : tr.inPush.isEmpty = true := h
      have hip : tr.inPush = [] := by
        cases hc : tr.inPush with
        | nil => rfl
        | cons a l => rw [hc] at h; simp at h
      refine consumable_of_step (t, tag) tr ?_ ?_
      · unfold trStepTr
        rw [show ((t, tag) : Token).1 = t from rfl, htb]
      · rw [hip]
        intro d hd
        cases hd

/-- Single characters: every recognised character is tab (expanded by
the table to two spaces) or a re-queue-free table hit. -/
theorem rec_singles : ∀ c ∈ recChars, c = '\t' ∨ directHitB [c] = true := by decide

/-- The tab table entry re-queues two whitespace-tagged spaces. -/
theorem tab_entry : trTable ['\t'] =
    some ⟨[([' '], some whitespaceTag), ([' '], some whitespaceTag)], [], defaultState⟩ := by
  decide

/-- Space is a re-queue-free table hit. -/
theorem space_direct : directHitB [' '] = true := by decide

/-- The number indicator is a re-queue-free table hit (`uni` dict). -/
theorem nc_direct : directHitB numberCode = true := by decide

/-- The upper indicator is a re-queue-free table hit (`uni` dict). -/
theorem uc_direct : directHitB upperCode = true := by decide

/-- `'ed'` is a re-queue-free table hit (`misc` dict). -/
theorem ed_direct : directHitB "ed".toList = true := by decide

/-- `'ing'` is a re-queue-free table hit (`misc` dict). -/
theorem ing_direct : directHitB "ing".toList = true := by decide

/-- Every token re-queued by a table transition consists of recognised
characters and weighs strictly less than any token keyed by that
entry. -/
theorem table_inpush_facts : ∀ kv ∈ trEntries, ∀ d ∈ kv.2.inPush,
    (∀ c ∈ d.1, c ∈ recChars) ∧ tokW d < 1 + sW kv.1 := by decide

/-- Lowercasing preserves recognised characters and their weights. -/
theorem rec_lower_chars : ∀ c ∈ recChars,
    pyLowerChar c ∈ recChars ∧ charWeight (pyLowerChar c) = charWeight c := by decide

/-- Any single recognised character is consumable under any tag. -/
theorem consumable_single : ∀ c ∈ recChars, ∀ tag, Consumable ([c], tag) := by
  intro c hc tag
  rcases rec_singles c hc with htab | hdir
  · subst htab
    refine consumable_of_step (['\t'], tag)
      ⟨[([' '], some whitespaceTag), ([' '], some whitespaceTag)], [], defaultState⟩ ?_ ?_
    · unfold trStepTr
      rw [show ((['\t'], tag) : Token).1 = ['\t'] from rfl, tab_entry]
    · intro d hd
      have : d = ([' '], some whitespaceTag) := by
        simp only [List.mem_cons, List.not_mem_nil, or_false] at hd
        rcases hd with h | h <;> exact h
      rw [this]
      exact consumable_of_directHit [' '] space_direct _
  · exact consumable_of_directHit [c] hdir tag

/-- Tag weights are positive. -/
theorem tagWeight_pos (tg : Tag) : 1 ≤ tagWeight tg := by
  unfold tagWeight
  split <;> omega

/-- Text weight is additive over concatenation. -/
theorem sW_append (a b : Txt) : sW (a ++ b) = sW a + sW b := by
  simp [sW]

/-- Lowercasing a recognised text preserves its weight. -/
theorem sW_pyLower : ∀ (t : Txt), (∀ c ∈ t, c ∈ recChars) → sW (pyLower t) = sW t := by
  intro t
  induction t with
  | nil => intro _; rfl
  | cons c r ih =>
      intro h
      have hc := (rec_lower_chars c (h c (List.mem_cons_self c r))).2
      show charWeight (pyLowerChar c) + sW (pyLower r) = charWeight c + sW r
      rw [hc, ih (fun x hx => h x (List.mem_cons_of_mem c hx))]

/-- Lowercasing a recognised text yields a recognised text. -/
theorem pyLower_rec : ∀ (t : Txt), (∀ c ∈ t, c ∈ recChars) → ∀ c ∈ pyLower t, c ∈ recChars := by
  intro t h c hc
  simp only [pyLower, List.mem_map] at hc
  obtain ⟨x, hx, rfl⟩ := hc
  exact (rec_lower_chars x (h x hx)).1

/-- `findSub` finds a genuine occurrence: the text decomposes as
`prefix ++ pattern ++ suffix` at the found index. -/
theorem findSub_decomp : ∀ (xs pat : Txt) (i : Nat), findSub pat xs = some i →
    xs.take i ++ pat ++ xs.drop (i + pat.length) = xs := by
  intro xs
  induction xs with
  | nil =>
      intro pat i h
      unfold findSub at h
      split at h
      · rename_i hp
        have hpat : pat = [] :=
          List.eq_nil_of_prefix_nil (List.isPrefixOf_iff_prefix.mp hp)
        injection h with h
        subst h
        simp [hpat]
      · cases h
  | cons x t ih =>
      intro pat i h
      unfold findSub at h
      split at h
      · rename_i hp
        obtain ⟨s, hs⟩ := List.isPrefixOf_iff_prefix.mp hp
        injection h with h
        subst h
        rw [List.take_zero, List.nil_append, Nat.zero_add, ← hs, List.drop_left]
      · cases hf : findSub pat t with
        | none => rw [hf] at h; cases h
        | some j =>
            rw [hf] at h
            replace h : some (j + 1) = some i := h
            injection h with h
            subst h
            have hdec := ih pat j hf
            rw [show j + 1 + pat.length = (j + pat.length) + 1 from by omega]
            rw [List.take_succ_cons, List.drop_succ_cons]
            simp only [List.cons_append]
            rw [hdec]

/-- Fragment-splitting case of the termination induction: every piece
re-queued after splitting out an occurrence of a directly-consumable
fragment is consumable, the fragment directly and the strict substrings
by the induction hypothesis. -/
theorem frag_case_aux (N : Nat)
    (ih : ∀ t2 : Token, tokW t2 < N → (∀ c ∈ t2.1, c ∈ recChars) → Consumable t2)
    (txt : Txt) (tag : Tag) (frag : Txt) (i : Nat)
    (hfind : findSub frag txt = some i) (hdir : directHitB frag = true)
    (hfw : 2 ≤ sW frag) (hrec : ∀ c ∈ txt, c ∈ recChars)
    (hlt : tokW (txt, tag) < N + 1) :
    ∀ d ∈ ([txt.take i, frag, txt.drop (i + frag.length)].filter (fun p => p ≠ [])).map
        (fun p => ((p, tag) : Token)), Consumable d := by
  intro d hd
  simp only [List.mem_map] at hd
  obtain ⟨p, hp, rfl⟩ := hd
  have hmem := (List.mem_filter.mp hp).1
  have hdecomp := findSub_decomp txt frag i hfind
  have hsum : sW (txt.take i) + sW frag + sW (txt.drop (i + frag.length)) = sW txt := by
    conv_rhs => rw [← hdecomp]
    rw [sW_append, sW_append]
  have hw : tokW (txt, tag) = tagWeight tag + sW txt := rfl
  rw [hw] at hlt
  simp only [List.mem_cons, List.not_mem_nil, or_false] at hmem
  rcases hmem with rfl | rfl | rfl
  · refine ih _ ?_ (fun c hc => hrec c (List.take_subset i txt hc))
    have : tokW (txt.take i, tag) = tagWeight tag + sW (txt.take i) := rfl
    rw [this]
    omega
  · exact consumable_of_directHit _ hdir tag
  · refine ih _ ?_ (fun c hc => hrec c (List.drop_subset (i + frag.length) txt hc))
    have : tokW (txt.drop (i + frag.length), tag) =
        tagWeight tag + sW (txt.drop (i + frag.length)) := rfl
    rw [this]
    omega

/-- Main termination induction: every token made of recognised
characters is consumable, by strong induction on its weight. -/
theorem consume_rec : ∀ (N : Nat) (t : Token), tokW t < N →
    (∀ c ∈ t.1, c ∈ recChars) → Consumable t := by
  intro N
  induction N with
  | zero => intro t h _; exact absurd h (Nat.not_lt_zero _)
  | succ N ih =>
      intro t hlt hrec
      obtain ⟨txt, tag⟩ := t
      cases htb : trTable txt with
      | some tr =>
          refine consumable_of_step (txt, tag) tr ?_ ?_
          · unfold trStepTr
            rw [show (((txt, tag) : Token)).1 = txt from rfl, htb]
          · intro d hd
            have hm := alookup_mem _ _ _ htb
            have hf := table_inpush_facts _ hm d hd
            refine ih d ?_ hf.1
            have h1 := tagWeight_pos tag
            have h2 : tokW d < 1 + sW txt := hf.2
            have hw : tokW (txt, tag) = tagWeight tag + sW txt := rfl
            rw [hw] at hlt
            omega
      | none =>
          have hw : tokW (txt, tag) = tagWeight tag + sW txt := rfl
          by_cases h1 : tag = some numberTag
          · have hs : trStepTr (txt, tag) =
                some ⟨[(numberCode, tag), (txt, some lowerTag)], [], defaultState⟩ := by
              unfold trStepTr
              rw [show (((txt, tag) : Token)).1 = txt from rfl, htb]
              subst h1
              simp [trTransform]
            refine consumable_of_step _ _ hs ?_
            intro d hd
            simp only [List.mem_cons, List.not_mem_nil, or_false] at hd
            rcases hd with rfl | rfl
            · exact consumable_of_directHit numberCode nc_direct tag
            · refine ih (txt, some lowerTag) ?_ hrec
              have e1 : tokW (txt, some lowerTag) = tagWeight (some lowerTag) + sW txt := rfl
              have e2 : tagWeight (some lowerTag) = 1 := by decide
              have e3 : tagWeight tag = 2 := by rw [h1]; decide
              rw [hw, e3] at hlt
              rw [e1, e2]
              omega
          · by_cases h2 : tag = some upperTag
            · have hs : trStepTr (txt, tag) =
                  some ⟨[(upperCode, tag), (upperCode, tag), (pyLower txt, some lowerTag)],
                    [], defaultState⟩ := by
                unfold trStepTr
                rw [show (((txt, tag) : Token)).1 = txt from rfl, htb]
                subst h2
                simp [trTransform, upperTag, numberTag]
              refine consumable_of_step _ _ hs ?_
              intro d hd
              simp only [List.mem_cons, List.not_mem_nil, or_false] at hd
              rcases hd with rfl | rfl | rfl
              · exact consumable_of_directHit upperCode uc_direct tag
              · exact consumable_of_directHit upperCode uc_direct tag
              · refine ih (pyLower txt, some lowerTag) ?_ (pyLower_rec txt hrec)
                have e1 : tokW (pyLower txt, some lowerTag) =
                    tagWeight (some lowerTag) + sW (pyLower txt) := rfl
                have e2 : tagWeight (some lowerTag) = 1 := by decide
                have e3 : tagWeight tag = 2 := by rw [h2]; decide
                have e4 := sW_pyLower txt hrec
                rw [hw, e3] at hlt
                rw [e1, e2, e4]
                omega
            · cases hed : fragTry txt ("ed".toList) with
              | some ps =>
                  have hed2 : fragTry txt ['e', 'd'] = some ps := hed
                  have hs : trStepTr (txt, tag) =
                      some ⟨ps.map (fun p => (p, tag)), [], defaultState⟩ := by
                    unfold trStepTr
                    rw [show (((txt, tag) : Token)).1 = txt from rfl, htb]
                    simp [trTransform, h1, h2, hed2]
                  refine consumable_of_step _ _ hs ?_
                  unfold fragTry at hed
                  cases hfind : findSub ("ed".toList) txt with
                  | none => rw [hfind] at hed; cases hed
                  | some i =>
                      rw [hfind] at hed
                      replace hed : some ([txt.take i, "ed".toList,
                          txt.drop (i + ("ed".toList).length)].filter (fun p => p ≠ [])) =
                          some ps := hed
                      injection hed with hed
                      subst hed
                      exact frag_case_aux N ih txt tag ("ed".toList) i hfind ed_direct
                        (by decide) hrec hlt
              | none =>
                  cases hing : fragTry txt ("ing".toList) with
                  | some ps =>
                      have hed2 : fragTry txt ['e', 'd'] = none := hed
                      have hing2 : fragTry txt ['i', 'n', 'g'] = some ps := hing
                      have hs : trStepTr (txt, tag) =
                          some ⟨ps.map (fun p => (p, tag)), [], defaultState⟩ := by
                        unfold trStepTr
                        rw [show (((txt, tag) : Token)).1 = txt from rfl, htb]
                        simp [trTransform, h1, h2, hed2, hing2]
                      refine consumable_of_step _ _ hs ?_
                      unfold fragTry at hing
                      cases hfind : findSub ("ing".toList) txt with
                      | none => rw [hfind] at hing; cases hing
                      | some i =>
                          rw [hfind] at hing
                          replace hing : some ([txt.take i, "ing".toList,
                              txt.drop (i + ("ing".toList).length)].filter (fun p => p ≠ [])) =
                              some ps := hing
                          injection hing with hing
                          subst hing
                          exact frag_case_aux N ih txt tag ("ing".toList) i hfind ing_direct
                            (by decide) hrec hlt
                  | none =>
                      have hed2 : fragTry txt ['e', 'd'] = none := hed
                      have hing2 : fragTry txt ['i', 'n', 'g'] = none := hing
                      have hs : trStepTr (txt, tag) =
                          some ⟨txt.map (fun c => ([c], tag)), [], defaultState⟩ := by
                        unfold trStepTr
                        rw [show (((txt, tag) : Token)).1 = txt from rfl, htb]
                        simp [trTransform, h1, h2, hed2, hing2]
                      refine consumable_of_step _ _ hs ?_
                      intro d hd
                      simp only [List.mem_map] at hd
                      obtain ⟨c, hc, rfl⟩ := hd
                      exact consumable_single c (hrec c hc) tag

/-! ## C2: termination claim -/

/-- One iteration on the unrecognised token `('!', None)` reproduces the
configuration exactly: the transform hook's final branch re-queues the
very token it was given. -/
theorem bang_step : ∀ n : Nat, procF trM (n + 1) [(['!'], none)] none [] defaultState =
    procF trM n [(['!'], none)] none [] defaultState := by
  intro n
  have hs : trStepTr (['!'], none) = some ⟨[(['!'], (none : Tag))], [], defaultState⟩ := by
    decide
  rw [procF_trM_succ_some n (['!'], none) [] none [] _ hs]
  simp [applyOut]

/-- No amount of fuel completes the run on input `'!'`. -/
theorem bang_no_fuel : ∀ n : Nat, procF trM n [(['!'], none)] none [] defaultState = none := by
  intro n
  induction n with
  | zero => rfl
  | succ n ih => rw [bang_step n]; exact ih

/-- C2 counterexample: `BrailleTranslator.process` does not terminate on
the single-character input `'!'` — no number of loop iterations empties
the queue, because the transform hook re-queues the exact `(text, tag)`
pair it was given. -/
theorem c2_counterexample : ¬ ∃ (n : Nat) (r : PRes), runFSM trM n [(['!'], none)] = some r := by
  rintro ⟨n, r, h⟩
  have hb := bang_no_fuel n
  have he : runFSM trM n [(['!'], none)] =
      procF trM n [(['!'], none)] none [] defaultState := rfl
  rw [he, hb] at h
  cases h

/-- C2 amended: `BrailleTranslator.process` terminates on every finite
input token sequence whose texts consist of recognised characters
(letters, digits, space, tab, comma, period, Braille code points); for
such inputs the transform hook never reproduces a configuration.  The
unrestricted claim fails (`c2_counterexample`): on an unrecognised
single character the hook re-queues the unchanged `(text, tag)` pair. -/
theorem c2_amended_termination : ∀ toks : List Token,
    (∀ t ∈ toks, ∀ c ∈ t.1, c ∈ recChars) →
    ∃ (n : Nat) (out : List OutRec), runFSM trM n toks = some (.ok out) := by
  intro toks h
  have hcons : ∀ t ∈ toks, Consumable t :=
    fun t ht => consume_rec (tokW t + 1) t (Nat.lt_succ_self _) (h t ht)
  obtain ⟨n, q, hr⟩ := truns_ofList toks hcons (none, [])
  exact ⟨n, q.2 ++ trail q.1 defaultState, truns_procF hr⟩

/-- C2 witness: the amended termination theorem on a concrete mixed
input (an uppercase-tagged word, a number run, a tab and a suffix
fragment). -/
theorem c2_witness : ∃ (n : Nat) (out : List OutRec),
    runFSM trM n [("OK".toList, some upperTag), ("25".toList, some numberTag),
        (['\t'], some whitespaceTag), ("wanted".toList, some lowerTag)] = some (.ok out) :=
  c2_amended_termination _ (by decide)

/-- C9 witness: the round trip at the concrete pattern for letter `a`. -/
theorem c9_witness :
    (alookup dots2unicode ("100 000".toList)).bind (alookup unicode2dots) =
      some ("100 000".toList) :=
  c9_conversion_maps.2.2.2.2.2.2.1 ("100 000".toList) (by decide)
